import Mathlib

/-!
Verification development for the e621-dl deduplication tool (src/e621_dl.py).

The Python source is shallowly embedded:
* a filesystem path is modelled as the list of components of its absolute
  form (the CLI resolves every root directory, so every path the program
  handles is already absolute);
* the flat filesystem state is a map from paths to entries (regular file
  with byte content, or symbolic link with a target string);
* Python exceptions are modelled with Option/Except;
* machine integers do not overflow in this program (Python ints are
  unbounded), so Nat/Int are used directly;
* str.lower and the digit class of the filename pattern are modelled
  over ASCII, which covers the names and tags this tool produces;
  str.encode is modelled as full UTF-8.
-/

/-- A path, as the components of its absolute form. -/
abbrev AbsPath := List String

/-- The textual absolute form of a path: components joined by slashes,
with a leading slash, as produced by str(p.absolute()) on posix. -/
def absStr (p : AbsPath) : String :=
  String.intercalate "/" ("" :: p)

/-- Character count of the absolute textual form, the key used by
find_shortest_path (len(str(p.absolute()))). -/
def pathLen (p : AbsPath) : Nat :=
  (absStr p).length

/-- The parent directory of a path (Path.parent). -/
def parentDir (p : AbsPath) : AbsPath :=
  p.dropLast

/-- Longest common prefix removal, the core of os.path.relpath. -/
def stripCommon : List String → List String → List String × List String
  | a :: as, b :: bs => if a = b then stripCommon as bs else (a :: as, b :: bs)
  | as, bs => (as, bs)

/-- os.path.relpath(path, start) on posix for two absolute paths given by
their component lists: strip the common prefix, go up from start with ".."
segments, then down into path. -/
def relpath (path start : AbsPath) : String :=
  let pr := stripCommon path start
  let comps := pr.2.map (fun _ => "..") ++ pr.1
  if comps = [] then "." else String.intercalate "/" comps

/-- A filesystem entry: a regular file with its byte content, or a
symbolic link carrying its stored target text. -/
inductive FsEntry where
  | regular (content : List Nat)
  | symlink (target : String)
deriving DecidableEq

/-- Flat filesystem state: each path is absent or holds one entry. -/
abbrev Fs := AbsPath → Option FsEntry

/-- Path.unlink(): remove the entry at p. -/
def fsUnlink (fs : Fs) (p : AbsPath) : Fs :=
  fun q => if q = p then none else fs q

/-- Path.symlink_to(target): create a symbolic link at p storing target. -/
def fsSymlinkTo (fs : Fs) (p : AbsPath) (target : String) : Fs :=
  fun q => if q = p then some (FsEntry.symlink target) else fs q

/-- Path.write_bytes(content): create or overwrite a regular file at p. -/
def fsWriteBytes (fs : Fs) (p : AbsPath) (content : List Nat) : Fs :=
  fun q => if q = p then some (FsEntry.regular content) else fs q

/-- Whether the entry at p is a symbolic link (Path.is_symlink). -/
def isSymlinkAt (fs : Fs) (p : AbsPath) : Bool :=
  match fs p with
  | some (FsEntry.symlink _) => true
  | _ => false

/-- Whether the entry at p is a regular file. -/
def isRegularAt (fs : Fs) (p : AbsPath) : Bool :=
  match fs p with
  | some (FsEntry.regular _) => true
  | _ => false

/-- find_shortest_path: min(paths, key=lambda p: len(str(p.absolute()))).
Python's min folds left to right keeping the current element unless the
next one is strictly smaller, so the first minimum wins; min of an empty
sequence raises ValueError, modelled as none. -/
def find_shortest_path : List AbsPath → Option AbsPath
  | [] => none
  | p :: ps => some (ps.foldl (fun best q => if pathLen q < pathLen best then q else best) p)

/-- PostManager: one registry entry, the regular-file copies and the
symbolic links discovered for one post id, in scan order. -/
structure PostManager where
  id : Nat
  copies : List AbsPath
  links : List AbsPath
deriving DecidableEq

/-- One relink step of PostManager.replace_copies_with_symlinks:
copy.unlink() then copy.symlink_to(os.path.relpath(original, copy.parent)). -/
def relinkStep (original : AbsPath) (fs : Fs) (copy : AbsPath) : Fs :=
  fsSymlinkTo (fsUnlink fs copy) copy (relpath original (parentDir copy))

/-- PostManager.replace_copies_with_symlinks: pick the shortest copy as
the original, drop it from copies, and relink every remaining copy and
every link to a relative link aimed at the original.  The ValueError that
min raises on an empty copies list is modelled as none. -/
def replace_copies_with_symlinks (pm : PostManager) (fs : Fs) :
    Option (PostManager × Fs) :=
  match find_shortest_path pm.copies with
  | none => none
  | some original =>
      let copies := pm.copies.erase original
      let fs := (copies ++ pm.links).foldl (relinkStep original) fs
      some ({ pm with copies := copies }, fs)

example : find_shortest_path [["aa"], ["b"], ["c"]] = some ["b"] := by decide

example : relpath ["a", "x.jpg"] ["b", "c"] = "../../a/x.jpg" := by decide

example : relpath ["a", "x.jpg"] ["a"] = "x.jpg" := by decide

/-- Decimal value of a digit run, as int() computes it on the captured
group of the regular expression. -/
def digitsVal (l : List Char) : Nat :=
  l.foldl (fun acc c => 10 * acc + (c.toNat - 48)) 0

/-- VALID_FILE_NAME.match(name) for the pattern
"\d+ (?P<post_id>\d+)" together with int(m["post_id"]): re.match anchors
at the start of the string only, so it succeeds exactly when the name
begins with a nonempty digit run, then one space, then a nonempty digit
run; the greedy second run captures the maximal digit run after the
space, and whatever follows it is not inspected.  Returns the parsed
post id on success. -/
def valid_file_name_match (name : String) : Option Nat :=
  let d1 := name.data.takeWhile Char.isDigit
  let rest1 := name.data.dropWhile Char.isDigit
  if d1.isEmpty then none
  else
    match rest1 with
    | c :: rest2 =>
        if c = ' ' then
          let d2 := rest2.takeWhile Char.isDigit
          if d2.isEmpty then none else some (digitsVal d2)
        else none
    | [] => none

/-- Modelled from the spec: the strict filename convention
"ordinal space post_id period ext" — a nonempty decimal digit run, a
single space, a nonempty decimal digit run immediately followed by a
period.  This is the convention the specification states the scanner
enforces; it is compared against the behaviour of valid_file_name_match. -/
def strictConvention (name : String) : Bool :=
  let d1 := name.data.takeWhile Char.isDigit
  let rest1 := name.data.dropWhile Char.isDigit
  match rest1 with
  | c :: rest2 =>
      let d2 := rest2.takeWhile Char.isDigit
      let rest3 := rest2.dropWhile Char.isDigit
      (c = ' ' : Bool) && !d1.isEmpty && !d2.isEmpty &&
        (match rest3 with
         | c2 :: _ => (c2 = '.' : Bool)
         | [] => false)
  | [] => false

/-- The in-memory registry: Python dict from post id to PostManager.
CPython dicts preserve insertion order, and find_all_posts mutates the
entry in place, so an association list updated in place models it. -/
abbrev Registry := List (Nat × PostManager)

/-- Record one scanned file into the registry under its post id, creating
the PostManager on first sighting, appending to its links when the file
is a symbolic link and to its copies otherwise. -/
def registryAdd (posts : Registry) (pid : Nat) (path : AbsPath) (isLink : Bool) :
    Registry :=
  match posts with
  | [] =>
      [(pid, if isLink then ⟨pid, [], [path]⟩ else ⟨pid, [path], []⟩)]
  | (k, pm) :: rest =>
      if k = pid then
        (k, if isLink then { pm with links := pm.links ++ [path] }
            else { pm with copies := pm.copies ++ [path] }) :: rest
      else
        (k, pm) :: registryAdd rest pid path isLink

/-- One directory entry as the scanner observes it.  A dir node is an
entry for which Path.is_dir() is true; since is_dir dereferences
symbolic links, a symbolic link whose target is a directory is a dir
node with isLink set, and its children are the target directory's
entries as iterdir would yield them through the link.  A file node is
any non-directory entry (regular file, or symbolic link to a non
directory, or broken link), with isLink telling Path.is_symlink(). -/
inductive DirEntry where
  | file (name : String) (isLink : Bool)
  | dir (name : String) (isLink : Bool) (children : List DirEntry)

/-- Name of a directory entry (Path.name). -/
def DirEntry.entryName : DirEntry → String
  | DirEntry.file n _ => n
  | DirEntry.dir n _ _ => n

/-- Path.is_symlink() of a directory entry. -/
def DirEntry.entryIsSymlink : DirEntry → Bool
  | DirEntry.file _ l => l
  | DirEntry.dir _ l _ => l

/-- Path.is_dir() of a directory entry (true also for a symbolic link
whose target is a directory, since is_dir follows links). -/
def DirEntry.entryIsDir : DirEntry → Bool
  | DirEntry.file _ _ => false
  | DirEntry.dir _ _ _ => true

mutual

/-- The body of the find_all_posts loop for one entry: recurse when
is_dir() is true, otherwise try VALID_FILE_NAME and record a match. -/
def scanEntry (cur : AbsPath) (e : DirEntry) (posts : Registry) : Registry :=
  match e with
  | DirEntry.dir name _ children => scanList (cur ++ [name]) children posts
  | DirEntry.file name isLink =>
      match valid_file_name_match name with
      | none => posts
      | some pid => registryAdd posts pid (cur ++ [name]) isLink

/-- The find_all_posts loop over the entries of one directory, in
iterdir order, threading the registry. -/
def scanList (cur : AbsPath) (es : List DirEntry) (posts : Registry) : Registry :=
  match es with
  | [] => posts
  | e :: rest => scanList cur rest (scanEntry cur e posts)

end

/-- find_all_posts(d, posts): d is the path cur whose listing is
children; every discovered file is recorded into the registry. -/
def find_all_posts (cur : AbsPath) (children : List DirEntry) (posts : Registry) :
    Registry :=
  scanList cur children posts

example : valid_file_name_match "1 100.jpg" = some 100 := by decide

example : valid_file_name_match "1 100" = some 100 := by decide

example : valid_file_name_match "cover.jpg" = none := by decide

example : strictConvention "1 100.jpg" = true := by decide

example : strictConvention "1 100" = false := by decide

/-- UTF-8 encoding of one character, the bytes str.encode() produces. -/
def utf8Bytes (c : Char) : List Nat :=
  let n := c.toNat
  if n < 128 then [n]
  else if n < 2048 then [192 + n / 64, 128 + n % 64]
  else if n < 65536 then [224 + n / 4096, 128 + (n / 64) % 64, 128 + n % 64]
  else [240 + n / 262144, 128 + (n / 4096) % 64, 128 + (n / 64) % 64, 128 + n % 64]

/-- tag.encode(): the UTF-8 bytes of the string. -/
def strBytes (s : String) : List Nat :=
  s.data.flatMap utf8Bytes

/-- int.from_bytes(bytes, "little", signed=False): the little-endian
unsigned integer with the first byte least significant. -/
def fromBytesLE (l : List Nat) : Nat :=
  l.foldr (fun b acc => b + 256 * acc) 0

/-- Whether a tag is a metadata or negated tag: ":" in tag or
tag.startswith("-"). -/
def isSpecialTag (t : String) : Bool :=
  t.data.contains ':' ||
    (match t.data with
     | c :: _ => (c = '-' : Bool)
     | [] => false)

/-- sort_tag: the little-endian integer of the tag's bytes, negated for
metadata and negated tags so that they sink to the end of the
descending order. -/
def sort_tag (t : String) : Int :=
  let code : Int := (fromBytesLE (strBytes t) : Nat)
  if isSpecialTag t then -code else code

/-- ASCII lowercasing of one character, as str.lower() acts on the
characters these tags contain. -/
def lowerChar (c : Char) : Char :=
  if 65 ≤ c.toNat ∧ c.toNat ≤ 90 then Char.ofNat (c.toNat + 32) else c

/-- t.lower(). -/
def pyLower (s : String) : String :=
  ⟨s.data.map lowerChar⟩

/-- The character-list form of str.strip(): drop leading whitespace,
then trailing whitespace. -/
def stripData (l : List Char) : List Char :=
  ((l.dropWhile Char.isWhitespace).reverse.dropWhile Char.isWhitespace).reverse

/-- t.strip(): drop leading and trailing whitespace. -/
def pyStrip (s : String) : String :=
  ⟨stripData s.data⟩

/-- t.lower().strip(), the element-wise step of normalize_tags. -/
def cleanTag (t : String) : String :=
  pyStrip (pyLower t)

/-- Stable insertion of x into a list: x is placed before the first
element y with lt x y, and after every earlier element. -/
def insertSorted (lt : α → α → Bool) (x : α) : List α → List α
  | [] => [x]
  | y :: ys => if lt x y then x :: y :: ys else y :: insertSorted lt x ys

/-- Stable sort by repeated insertion, processing the input left to
right.  CPython's list.sort and sorted are stable for the order induced
by the key, and a stable sort is uniquely determined by that order, so
this models them exactly. -/
def stableSort (lt : α → α → Bool) (l : List α) : List α :=
  l.foldl (fun acc x => insertSorted lt x acc) []

/-- The comparison of tags.sort(reverse=True, key=sort_tag): descending
by key, ties keeping input order. -/
def tagBefore (a b : String) : Bool :=
  sort_tag b < sort_tag a

/-- normalize_tags: lowercase and strip each tag, then sort descending
by sort_tag. -/
def normalize_tags (tags : List String) : List String :=
  stableSort tagBefore (tags.map cleanTag)

example : normalize_tags ["fox", "-dog", "order:score"] = ["fox", "-dog", "order:score"] := by decide

example : normalize_tags ["order:score", "Fox ", "-dog"] = ["fox", "-dog", "order:score"] := by decide

/-- The transfer collaborator: fetching a url either raises (connection
error, timeout — modelled as Except.error with the message) or yields
the response body bytes. -/
abbrev Transport := String → Except String (List Nat)

/-- download_file(url, path): fetch the url and write the body to path;
a raised transfer exception propagates to the caller. -/
def download_file (transport : Transport) (url : String) (path : AbsPath)
    (fs : Fs) : Except String Fs :=
  match transport url with
  | Except.error e => Except.error e
  | Except.ok content => Except.ok (fsWriteBytes fs path content)

/-- State threaded through the mass_download loop: the filesystem, the
progress-bar count, the trace of download_file calls that completed
(the observable download effects), and the exception that aborted the
loop, if any. -/
structure DlState where
  fs : Fs
  progress : Nat
  downloaded : List (String × AbsPath)
  err : Option String

/-- The mass_download loop: for each (url, path, size) triple, download
unless the destination exists and overwrite is unset, then advance the
progress bar by the expected size.  There is no exception handler, so a
raised transfer error ends the loop at once: no later triple is
inspected and the progress update of the failing triple never runs. -/
def mass_download_go (transport : Transport) (overwrite : Bool) :
    List (String × AbsPath × Nat) → DlState → DlState
  | [], st => st
  | (url, path, size) :: rest, st =>
      if !(st.fs path).isSome || overwrite then
        match download_file transport url path st.fs with
        | Except.error e => { st with err := some e }
        | Except.ok fs1 =>
            mass_download_go transport overwrite rest
              { fs := fs1, progress := st.progress + size,
                downloaded := st.downloaded ++ [(url, path)], err := none }
      else
        mass_download_go transport overwrite rest
          { st with progress := st.progress + size }

/-- mass_download(files, api, overwrite): run the loop from the clean
initial state; tqdm's total is the sum of the expected sizes. -/
def mass_download (transport : Transport) (files : List (String × AbsPath × Nat))
    (overwrite : Bool) (fs : Fs) : DlState :=
  mass_download_go transport overwrite files
    { fs := fs, progress := 0, downloaded := [], err := none }

/-- The expected total tqdm is created with: the sum of the sizes. -/
def mass_download_total (files : List (String × AbsPath × Nat)) : Nat :=
  (files.map (fun f => f.2.2)).sum

/-- A post record as the batch-get collaborator returns it: the id and,
when the post has media, its file's url and size. -/
structure PostFile where
  url : String
  size : Nat
deriving DecidableEq

/-- A fetched post: stable integer id and optional file. -/
structure PostRec where
  id : Nat
  file : Option PostFile
deriving DecidableEq

/-- Python string comparison: lexicographic by code point. -/
def charListLt : List Char → List Char → Bool
  | [], [] => false
  | [], _ :: _ => true
  | _ :: _, [] => false
  | a :: as, b :: bs =>
      if a.toNat < b.toNat then true
      else if b.toNat < a.toNat then false
      else charListLt as bs

/-- The comparison of sorted(ids_to_download, key=lambda p: p[0]):
ascending by the string form of the id, lexicographic by code point,
ties keeping input order. -/
def pendingBefore (a b : String × AbsPath) : Bool :=
  charListLt a.1.data b.1.data

/-- The comparison of sorted(posts, key=lambda p: p.id): ascending by
the integer id. -/
def postBefore (a b : PostRec) : Bool :=
  a.id < b.id

/-- The pairing step of clean: sort the pending (str(id), path) list by
its string key, sort the fetched records by integer id, zip them, and
keep (url, path, size) for the records that have a file. -/
def clean_pairing (ids_to_download : List (String × AbsPath))
    (posts : List PostRec) : List (String × AbsPath × Nat) :=
  let zipped :=
    List.zip (stableSort pendingBefore ids_to_download) (stableSort postBefore posts)
  zipped.filterMap (fun pp =>
    match pp.2.file with
    | some f => some (f.url, pp.1.2, f.size)
    | none => none)

/-- The body of clean's loop for one registry entry: when the entry has
no regular copies and download_broken_symlinks is set, promote the
shortest link to a copy, unlink it on disk and queue (str(id), path)
for re-download; then unconditionally run
replace_copies_with_symlinks.  A ValueError raised by
find_shortest_path (min of an empty list) is modelled as none. -/
def cleanPost (download_broken_symlinks : Bool) (pm : PostManager) (fs : Fs) :
    Option (PostManager × Fs × List (String × AbsPath)) :=
  if pm.copies.isEmpty ∧ download_broken_symlinks then
    match find_shortest_path pm.links with
    | none => none
    | some new_original_path =>
        let pm1 : PostManager :=
          { pm with links := pm.links.erase new_original_path,
                    copies := pm.copies ++ [new_original_path] }
        let fs1 := fsUnlink fs new_original_path
        match replace_copies_with_symlinks pm1 fs1 with
        | none => none
        | some (pm2, fs2) =>
            some (pm2, fs2, [(toString pm.id, new_original_path)])
  else
    match replace_copies_with_symlinks pm fs with
    | none => none
    | some (pm2, fs2) => some (pm2, fs2, [])

/-- The registry entry the scanner builds for one post id whose files
live at the paths g (listed in traversal order): find_all_posts sends a
path to links when is_symlink() holds and to copies otherwise. -/
def scanPartition (fs : Fs) (pid : Nat) (g : List AbsPath) : PostManager :=
  { id := pid,
    copies := g.filter (fun p => !isSymlinkAt fs p),
    links := g.filter (fun p => isSymlinkAt fs p) }

/-- The canonicalization engine on one post id: rescan the post's paths
into a registry entry and run replace_copies_with_symlinks on it,
returning the new filesystem (none models the raised ValueError). -/
def canonEngine (fs : Fs) (g : List AbsPath) : Option Fs :=
  match replace_copies_with_symlinks (scanPartition fs 0 g) fs with
  | none => none
  | some r => some r.2

/-- The canonicalization engine over a whole tree: the scan groups the
discovered paths by post id and the clean loop processes the entries in
order, threading the filesystem. -/
def canonEngineAll (fs : Fs) : List (List AbsPath) → Option Fs
  | [] => some fs
  | g :: gs =>
      match canonEngine fs g with
      | none => none
      | some fs1 => canonEngineAll fs1 gs

/-- The invariant the canonicalization engine establishes for one post
id: one canonical path holds the regular file and every other tracked
path is a symbolic link aimed at it by its relative path. -/
def canonicalState (fs : Fs) (g : List AbsPath) (c : AbsPath) : Prop :=
  c ∈ g ∧ isRegularAt fs c = true ∧
    ∀ p ∈ g, p ≠ c → fs p = some (FsEntry.symlink (relpath c (parentDir p)))

/-! ### Concrete sample data used by witnesses and counterexamples -/

/-- A concrete registry entry for the C2 witness: two regular copies of
post 100 and one symbolic link. -/
def sampleManagerC2 : PostManager :=
  ⟨100, [["dl", "1 100.jpg"], ["longdir", "2 100.jpg"]], [["z", "3 100.jpg"]]⟩

/-- A concrete filesystem for the C2 witness. -/
def sampleFsC2 : Fs := fun p =>
  if p = ["dl", "1 100.jpg"] then some (FsEntry.regular [7])
  else if p = ["longdir", "2 100.jpg"] then some (FsEntry.regular [8])
  else if p = ["z", "3 100.jpg"] then some (FsEntry.symlink "stale") else none

/-- The pending repair list of a clean run that promoted the broken
links of posts 9 and 10: clean stores str(post.id) with each path. -/
def pendingC1 : List (String × AbsPath) :=
  [("9", ["d", "1 9.png"]), ("10", ["d", "2 10.png"])]

/-- The records the batch-get collaborator returns for exactly the
requested ids 9 and 10, one record per id, both with files. -/
def postsC1 : List PostRec :=
  [⟨9, some ⟨"url9", 11⟩⟩, ⟨10, some ⟨"url10", 22⟩⟩]

/-- The tree for the C3 counterexample: the root contains one entry
that is a symbolic link whose target is a directory holding a matching
file.  Path.is_dir() is true for it, so find_all_posts recurses into
it. -/
def linkedDirTree : List DirEntry :=
  [DirEntry.dir "sub" true [DirEntry.file "1 100.jpg" false]]

/-- The empty filesystem. -/
def emptyFs : Fs := fun _ => none

/-- A transport that fails on url "u1" and succeeds elsewhere. -/
def failTransport : Transport := fun u =>
  if u = "u1" then Except.error "boom" else Except.ok [1]

/-- A transport that succeeds on every url. -/
def okTransport : Transport := fun _ => Except.ok [3]

/-- Two download items whose first url fails. -/
def filesC8 : List (String × AbsPath × Nat) :=
  [("u1", ["p1"], 10), ("u2", ["p2"], 20)]

/-- A filesystem in which the destination of the first C9 item already
exists. -/
def fsC9 : Fs := fun p =>
  if p = ["a"] then some (FsEntry.regular [9]) else none

/-- Two download items, the first with an existing destination. -/
def filesC9 : List (String × AbsPath × Nat) :=
  [("u1", ["a"], 5), ("u2", ["b"], 7)]

/-- Two post-id groups of paths for the C4 witness: post 5 has one
regular copy and one symbolic link, post 6 a single regular copy. -/
def groupsC4 : List (List AbsPath) :=
  [[["a", "1 5.x"], ["b", "2 5.x"]], [["c", "1 6.x"]]]

/-- A filesystem matching groupsC4. -/
def fsC4 : Fs := fun p =>
  if p = ["a", "1 5.x"] then some (FsEntry.regular [1])
  else if p = ["b", "2 5.x"] then some (FsEntry.symlink "stale")
  else if p = ["c", "1 6.x"] then some (FsEntry.regular [2]) else none

/-! ### The relink fold -/

theorem relinkStep_at (original : AbsPath) (fs : Fs) (x q : AbsPath) :
    relinkStep original fs x q =
      if q = x then some (FsEntry.symlink (relpath original (parentDir x)))
      else fs q := by
  by_cases h : q = x <;>
    simp [relinkStep, fsSymlinkTo, fsUnlink, h]

theorem relink_foldl_at (original : AbsPath) (l : List AbsPath) (fs : Fs)
    (q : AbsPath) :
    (l.foldl (relinkStep original) fs) q =
      if q ∈ l then some (FsEntry.symlink (relpath original (parentDir q)))
      else fs q := by
  induction l generalizing fs with
  | nil => simp
  | cons x xs ih =>
      simp only [List.foldl_cons, ih, List.mem_cons]
      by_cases hxs : q ∈ xs
      · simp [hxs]
      · by_cases hx : q = x
        · subst hx
          simp [hxs, relinkStep_at]
        · simp [hxs, hx, relinkStep_at]

/-! ### Characterization of find_shortest_path as the first minimum -/

/-- The fold step of Python's min under the pathLen key. -/
def minStep (best q : AbsPath) : AbsPath :=
  if pathLen q < pathLen best then q else best

theorem find_shortest_path_cons (p : AbsPath) (ps : List AbsPath) :
    find_shortest_path (p :: ps) = some (ps.foldl minStep p) := rfl

theorem foldl_min_first (ps : List AbsPath) (p : AbsPath) :
    ∃ l1 l2,
      p :: ps = l1 ++ (ps.foldl minStep p) :: l2 ∧
      (∀ x ∈ l1, pathLen (ps.foldl minStep p) < pathLen x) ∧
      (∀ x ∈ l2, pathLen (ps.foldl minStep p) ≤ pathLen x) := by
  induction ps generalizing p with
  | nil => exact ⟨[], [], by simp, by simp, by simp⟩
  | cons q ps ih =>
      have hfold : (q :: ps).foldl minStep p = ps.foldl minStep (minStep p q) :=
        List.foldl_cons ..
      by_cases hlt : pathLen q < pathLen p
      · have hstep : minStep p q = q := by simp [minStep, hlt]
        rw [hfold, hstep]
        obtain ⟨l1, l2, hdec, hstrict, hle⟩ := ih q
        refine ⟨p :: l1, l2, ?_, ?_, hle⟩
        · rw [List.cons_append, ← hdec]
        · intro x hx
          rcases List.mem_cons.1 hx with hx | hx
          · subst hx
            have hmq : pathLen (ps.foldl minStep q) ≤ pathLen q := by
              cases l1 with
              | nil =>
                  have h1 : some q = some (ps.foldl minStep q) := by
                    simpa using congrArg List.head? hdec
                  rw [← Option.some.inj h1]
              | cons a l1 =>
                  have ha : some q = some a := by
                    simpa using congrArg List.head? hdec
                  have hlt2 := hstrict a (List.mem_cons_self a l1)
                  rw [← Option.some.inj ha] at hlt2
                  exact le_of_lt hlt2
            omega
          · exact hstrict x hx
      · have hstep : minStep p q = p := by simp [minStep, hlt]
        rw [hfold, hstep]
        obtain ⟨l1, l2, hdec, hstrict, hle⟩ := ih p
        cases l1 with
        | nil =>
            have hm : some p = some (ps.foldl minStep p) := by
              simpa using congrArg List.head? hdec
            have hm' : p = ps.foldl minStep p := Option.some.inj hm
            have hl2 : ps = l2 := by
              simpa using congrArg List.tail hdec
            refine ⟨[], q :: ps, ?_, by simp, ?_⟩
            · rw [List.nil_append, ← hm']
            · intro x hx
              rcases List.mem_cons.1 hx with hx | hx
              · subst hx
                rw [← hm']
                omega
              · exact hle x (hl2 ▸ hx)
        | cons a l1 =>
            have ha : some p = some a := by
              simpa using congrArg List.head? hdec
            have ha' : p = a := Option.some.inj ha
            subst ha'
            have hps : ps = l1 ++ (ps.foldl minStep p) :: l2 := by
              simpa using congrArg List.tail hdec
            have hmp : pathLen (ps.foldl minStep p) < pathLen p :=
              hstrict p (List.mem_cons_self p l1)
            refine ⟨p :: q :: l1, l2, ?_, ?_, hle⟩
            · rw [List.cons_append, List.cons_append, ← hps]
            · intro x hx
              rcases List.mem_cons.1 hx with hx | hx
              · subst hx
                exact hmp
              · rcases List.mem_cons.1 hx with hx | hx
                · subst hx
                  omega
                · exact hstrict x (List.mem_cons_of_mem p hx)

theorem find_shortest_path_first_min (l : List AbsPath) (h : l ≠ []) :
    ∃ m l1 l2,
      find_shortest_path l = some m ∧ l = l1 ++ m :: l2 ∧
      (∀ x ∈ l1, pathLen m < pathLen x) ∧ (∀ x ∈ l2, pathLen m ≤ pathLen x) := by
  cases l with
  | nil => exact absurd rfl h
  | cons p ps =>
      obtain ⟨l1, l2, hdec, hstrict, hle⟩ := foldl_min_first ps p
      exact ⟨_, l1, l2, find_shortest_path_cons p ps, hdec, hstrict, hle⟩

/-- C2: for a post entry with a non-empty copies list (and, as the
scanner guarantees, pairwise distinct tracked paths whose copies are
regular files), replace_copies_with_symlinks keeps the copy whose
absolute-path string has the fewest characters — ties broken by
first-encountered order, witnessed by the decomposition with strictly
longer paths before it — untouched as the unique regular file, and turns
every other originally-tracked path (remaining copies and all links)
into a symbolic link whose stored target is the relative path from that
path's parent directory to the canonical copy. -/
theorem C2_canonical_shortest_copy_kept_others_relinked
    (pm : PostManager) (fs : Fs)
    (hne : pm.copies ≠ [])
    (hnd : (pm.copies ++ pm.links).Nodup)
    (hreg : ∀ p ∈ pm.copies, isRegularAt fs p = true) :
    ∃ c l1 l2 pm1 fs1,
      find_shortest_path pm.copies = some c ∧
      pm.copies = l1 ++ c :: l2 ∧
      (∀ x ∈ l1, pathLen c < pathLen x) ∧
      (∀ x ∈ l2, pathLen c ≤ pathLen x) ∧
      replace_copies_with_symlinks pm fs = some (pm1, fs1) ∧
      fs1 c = fs c ∧
      isRegularAt fs1 c = true ∧
      (∀ p ∈ pm.copies.erase c ++ pm.links,
        fs1 p = some (FsEntry.symlink (relpath c (parentDir p)))) := by
  obtain ⟨c, l1, l2, hfind, hdec, hstrict, hle⟩ :=
    find_shortest_path_first_min pm.copies hne
  have hc_mem : c ∈ pm.copies := by
    rw [hdec]
    exact List.mem_append_right l1 (List.mem_cons_self c l2)
  have hnc : pm.copies.Nodup := (List.nodup_append.1 hnd).1
  have hdisj : pm.copies.Disjoint pm.links := (List.nodup_append.1 hnd).2.2
  have hc_not : c ∉ pm.copies.erase c ++ pm.links := by
    intro hmem
    rcases List.mem_append.1 hmem with hmem | hmem
    · exact ((hnc.mem_erase_iff).1 hmem).1 rfl
    · exact hdisj hc_mem hmem
  refine ⟨c, l1, l2, { pm with copies := pm.copies.erase c },
    (pm.copies.erase c ++ pm.links).foldl (relinkStep c) fs,
    hfind, hdec, hstrict, hle, ?_, ?_, ?_, ?_⟩
  · simp only [replace_copies_with_symlinks, hfind]
  · rw [relink_foldl_at]
    simp [hc_not]
  · rw [isRegularAt, relink_foldl_at]
    simp only [hc_not, if_neg, if_false]
    have := hreg c hc_mem
    rw [isRegularAt] at this
    simpa using this
  · intro p hp
    rw [relink_foldl_at]
    simp [hp]

/-- C10: find_shortest_path returns no path exactly on the empty list
(the ValueError of min on an empty sequence), every non-empty list gets
a result, and the error is reachable from the clean command: with
download_broken_symlinks off, an entry with no regular copies is still
passed to replace_copies_with_symlinks, which hits min([]). -/
theorem C10_empty_min_error_reachable_from_clean :
    find_shortest_path [] = none ∧
    (∀ l : List AbsPath, l ≠ [] → ∃ p, find_shortest_path l = some p) ∧
    (∀ (pm : PostManager) (fs : Fs), pm.copies = [] → pm.links ≠ [] →
      cleanPost false pm fs = none) := by
  refine ⟨rfl, ?_, ?_⟩
  · intro l hl
    obtain ⟨m, _, _, hfind, _⟩ := find_shortest_path_first_min l hl
    exact ⟨m, hfind⟩
  · intro pm fs hcopies _
    simp [cleanPost, replace_copies_with_symlinks, hcopies, find_shortest_path]

/-- Witness for C10: a singleton list has a shortest path, and a
link-only entry makes clean with the download flag off hit the error. -/
theorem C10_empty_min_error_reachable_from_clean_witness :
    (∃ p, find_shortest_path [["a"]] = some p) ∧
    cleanPost false ⟨200, [], [["u", "5 200.jpg"]]⟩ sampleFsC2 = none :=
  ⟨C10_empty_min_error_reachable_from_clean.2.1 [["a"]] (by decide),
   C10_empty_min_error_reachable_from_clean.2.2 ⟨200, [], [["u", "5 200.jpg"]]⟩
     sampleFsC2 rfl (by decide)⟩

/-- C1 fails on the code: although the collaborator returned exactly one
record per requested id with no omissions and no duplicates, the pairing
step sorts the pending list by the string form of the id ("10" < "9"
lexicographically) but the records by the integer id (9 < 10), so the
destination queued for post 10 is zipped with record 9's url and size
and vice versa.  The run downloads record 9's content into post 10's
promoted path. -/
theorem C1_sort_and_zip_mispairs_on_mixed_digit_lengths :
    clean_pairing pendingC1 postsC1 =
      [("url9", ["d", "2 10.png"], 11), ("url10", ["d", "1 9.png"], 22)] ∧
    pendingC1.map Prod.fst = ["9", "10"] ∧
    postsC1.map PostRec.id = [9, 10] ∧
    ("url9", (["d", "2 10.png"] : AbsPath), (11 : Nat)) ∈ clean_pairing pendingC1 postsC1 ∧
    ¬ (("url10", (["d", "2 10.png"] : AbsPath), (22 : Nat)) ∈ clean_pairing pendingC1 postsC1) := by
  decide

/-- C3 fails on the code: the scanned entry is a symbolic link
(is_symlink) that points at a directory (is_dir), yet the scan descends
through it and records the file inside, which could not happen if the
link were not traversed. -/
theorem C3_linked_directory_is_traversed :
    (DirEntry.dir "sub" true [DirEntry.file "1 100.jpg" false]).entryIsSymlink = true ∧
    (DirEntry.dir "sub" true [DirEntry.file "1 100.jpg" false]).entryIsDir = true ∧
    find_all_posts ["root"] linkedDirTree [] =
      [(100, ⟨100, [["root", "sub", "1 100.jpg"]], []⟩)] := by
  decide

/-- C3 amended: the scanner recurses into every entry for which
Path.is_dir() is true, and is_dir dereferences symbolic links, so a
symbolic link pointing at a directory is traversed exactly as the
directory itself would be; the symlink flag plays no role in the
traversal decision. -/
theorem C3_amended_scanner_follows_is_dir_through_links :
    ∀ (cur : AbsPath) (name : String) (children : List DirEntry) (posts : Registry),
      scanEntry cur (DirEntry.dir name true children) posts =
        find_all_posts (cur ++ [name]) children posts ∧
      scanEntry cur (DirEntry.dir name true children) posts =
        scanEntry cur (DirEntry.dir name false children) posts ∧
      (DirEntry.dir name true children).entryIsSymlink = true ∧
      (DirEntry.dir name true children).entryIsDir = true :=
  fun _ _ _ _ => ⟨rfl, rfl, rfl, rfl⟩

theorem takeWhile_all_append (p : Char → Bool) (l1 : List Char) (b : Char)
    (t : List Char) (h : ∀ c ∈ l1, p c = true) (hb : p b = false) :
    (l1 ++ b :: t).takeWhile p = l1 := by
  induction l1 with
  | nil => simp [List.takeWhile_cons, hb]
  | cons a l ih =>
      have ha := h a (List.mem_cons_self a l)
      simp [List.takeWhile_cons, ha, ih (fun c hc => h c (List.mem_cons_of_mem a hc))]

theorem dropWhile_all_append (p : Char → Bool) (l1 : List Char) (b : Char)
    (t : List Char) (h : ∀ c ∈ l1, p c = true) (hb : p b = false) :
    (l1 ++ b :: t).dropWhile p = b :: t := by
  induction l1 with
  | nil => simp [List.dropWhile_cons, hb]
  | cons a l ih =>
      have ha := h a (List.mem_cons_self a l)
      simp [List.dropWhile_cons, ha, ih (fun c hc => h c (List.mem_cons_of_mem a hc))]

/-- C5 fails on the code: a base name with no period at all — "1 100" —
is matched by VALID_FILE_NAME (the pattern requires nothing after the
second digit run) and recorded into the registry, although it does not
satisfy the strict ordinal-space-id-period convention. -/
theorem C5_name_without_period_is_recorded :
    valid_file_name_match "1 100" = some 100 ∧
    strictConvention "1 100" = false ∧
    strictConvention "1 100.jpg" = true ∧
    find_all_posts [] [DirEntry.file "1 100" false] [] =
      [(100, ⟨100, [["1 100"]], []⟩)] := by
  decide

/-- C5 amended: the scanner records a non-directory entry exactly when
its base name starts with a nonempty decimal digit run, a single space
and a nonempty decimal digit run; nothing after the second run is
examined, so no period or extension is required, and every
non-matching entry is silently ignored. -/
theorem C5_amended_scanner_records_iff_digit_space_digit_head
    (cur : AbsPath) (name : String) (isLink : Bool) (posts : Registry) :
    scanEntry cur (DirEntry.file name isLink) posts =
      (match valid_file_name_match name with
       | none => posts
       | some pid => registryAdd posts pid (cur ++ [name]) isLink) ∧
    ((valid_file_name_match name).isSome ↔
      ∃ d1 d2 rest, name.data = d1 ++ ' ' :: (d2 ++ rest) ∧
        d1 ≠ [] ∧ d2 ≠ [] ∧
        (∀ c ∈ d1, c.isDigit = true) ∧ (∀ c ∈ d2, c.isDigit = true)) := by
  refine ⟨rfl, ?_, ?_⟩
  · intro hsome
    by_cases h1 : (name.data.takeWhile Char.isDigit).isEmpty
    · rw [valid_file_name_match] at hsome
      simp [h1] at hsome
    · rcases hr : name.data.dropWhile Char.isDigit with _ | ⟨c, rest2⟩
      · rw [valid_file_name_match] at hsome
        simp [h1, hr] at hsome
      · by_cases hc : c = ' '
        · subst hc
          by_cases h2 : (rest2.takeWhile Char.isDigit).isEmpty
          · rw [valid_file_name_match] at hsome
            simp [h1, hr, h2] at hsome
          · refine ⟨name.data.takeWhile Char.isDigit, rest2.takeWhile Char.isDigit,
              rest2.dropWhile Char.isDigit, ?_, ?_, ?_, ?_, ?_⟩
            · conv_lhs => rw [← List.takeWhile_append_dropWhile Char.isDigit name.data]
              rw [hr, List.takeWhile_append_dropWhile]
            · exact fun he => h1 (List.isEmpty_iff.2 he)
            · exact fun he => h2 (List.isEmpty_iff.2 he)
            · exact fun ch hch => List.mem_takeWhile_imp hch
            · exact fun ch hch => List.mem_takeWhile_imp hch
        · rw [valid_file_name_match] at hsome
          simp [h1, hr, hc] at hsome
  · rintro ⟨d1, d2, rest, hdec, h1ne, h2ne, hd1, hd2⟩
    have htake : name.data.takeWhile Char.isDigit = d1 := by
      rw [hdec]
      exact takeWhile_all_append Char.isDigit d1 ' ' (d2 ++ rest) hd1 (by decide)
    have hdrop : name.data.dropWhile Char.isDigit = ' ' :: (d2 ++ rest) := by
      rw [hdec]
      exact dropWhile_all_append Char.isDigit d1 ' ' (d2 ++ rest) hd1 (by decide)
    have h1 : d1.isEmpty = false := by
      cases d1 with
      | nil => exact absurd rfl h1ne
      | cons a l => rfl
    have h2 : ((d2 ++ rest).takeWhile Char.isDigit).isEmpty = false := by
      cases d2 with
      | nil => exact absurd rfl h2ne
      | cons a l =>
          have ha : a.isDigit = true := hd2 a (List.mem_cons_self a l)
          simp [List.takeWhile_cons, ha]
    rw [valid_file_name_match]
    simp [htake, hdrop, h1, h2]

/-- Witness for C2 at a concrete entry and filesystem. -/
theorem C2_canonical_shortest_copy_kept_others_relinked_witness :
    ∃ c l1 l2 pm1 fs1,
      find_shortest_path sampleManagerC2.copies = some c ∧
      sampleManagerC2.copies = l1 ++ c :: l2 ∧
      (∀ x ∈ l1, pathLen c < pathLen x) ∧
      (∀ x ∈ l2, pathLen c ≤ pathLen x) ∧
      replace_copies_with_symlinks sampleManagerC2 sampleFsC2 = some (pm1, fs1) ∧
      fs1 c = sampleFsC2 c ∧
      isRegularAt fs1 c = true ∧
      (∀ p ∈ sampleManagerC2.copies.erase c ++ sampleManagerC2.links,
        fs1 p = some (FsEntry.symlink (relpath c (parentDir p)))) :=
  C2_canonical_shortest_copy_kept_others_relinked sampleManagerC2 sampleFsC2
    (by decide) (by decide) (by decide)

/-! ### The bulk fetcher -/

theorem mass_download_go_success
    (transport : Transport) (files : List (String × AbsPath × Nat)) (st : DlState)
    (hnd : (files.map (fun i => i.2.1)).Nodup)
    (herr : st.err = none)
    (hok : ∀ i ∈ files, (st.fs i.2.1).isSome = false →
      ∃ c, transport i.1 = Except.ok c) :
    (mass_download_go transport false files st).err = none ∧
    (mass_download_go transport false files st).progress =
      st.progress + (files.map (fun i => i.2.2)).sum ∧
    (mass_download_go transport false files st).downloaded =
      st.downloaded ++
        (files.filter (fun i => !(st.fs i.2.1).isSome)).map (fun i => (i.1, i.2.1)) ∧
    (∀ q, (st.fs q).isSome = true →
      (mass_download_go transport false files st).fs q = st.fs q) := by
  induction files generalizing st with
  | nil =>
      refine ⟨herr, by simp [mass_download_go], by simp [mass_download_go], ?_⟩
      intro q _
      simp [mass_download_go]
  | cons hd rest ih =>
      obtain ⟨url, path, size⟩ := hd
      have hnd' : (rest.map (fun i => i.2.1)).Nodup := hnd.of_cons
      have hpath_not : path ∉ rest.map (fun i => i.2.1) := by
        have := List.nodup_cons.1 hnd
        exact this.1
      by_cases hex : (st.fs path).isSome = true
      · have hcond : (!(st.fs path).isSome || false) = false := by
          simp [hex]
        have hgo : mass_download_go transport false ((url, path, size) :: rest) st =
            mass_download_go transport false rest
              { st with progress := st.progress + size } := by
          rw [mass_download_go, hcond]
          simp
        obtain ⟨ih1, ih2, ih3, ih4⟩ :=
          ih { st with progress := st.progress + size } hnd' herr
            (fun i hi hne => hok i (List.mem_cons_of_mem _ hi) hne)
        refine ⟨hgo ▸ ih1, ?_, ?_, ?_⟩
        · rw [hgo, ih2]
          simp
          omega
        · rw [hgo, ih3, List.filter_cons, if_neg (by simp [hex])]
        · intro q hq
          rw [hgo]
          exact ih4 q hq
      · have hexf : (st.fs path).isSome = false := by
          simpa using hex
        have hcond : (!(st.fs path).isSome || false) = true := by
          simp [hexf]
        obtain ⟨c, hc⟩ := hok (url, path, size) (List.mem_cons_self _ _) hexf
        have hdl : download_file transport url path st.fs =
            Except.ok (fsWriteBytes st.fs path c) := by
          rw [download_file, hc]
        have hgo : mass_download_go transport false ((url, path, size) :: rest) st =
            mass_download_go transport false rest
              { fs := fsWriteBytes st.fs path c, progress := st.progress + size,
                downloaded := st.downloaded ++ [(url, path)], err := none } := by
          rw [mass_download_go, hcond]
          simp [hdl]
        have hfs_mono : ∀ (d : AbsPath), ((fsWriteBytes st.fs path c) d).isSome = false →
            (st.fs d).isSome = false := by
          intro d hd
          by_cases hdp : d = path
          · subst hdp
            simp [fsWriteBytes] at hd
          · simpa [fsWriteBytes, hdp] using hd
        obtain ⟨ih1, ih2, ih3, ih4⟩ :=
          ih { fs := fsWriteBytes st.fs path c, progress := st.progress + size,
               downloaded := st.downloaded ++ [(url, path)], err := none }
            hnd' rfl
            (fun i hi hne => hok i (List.mem_cons_of_mem _ hi) (hfs_mono _ hne))
        refine ⟨hgo ▸ ih1, ?_, ?_, ?_⟩
        · rw [hgo, ih2]
          simp
          omega
        · rw [hgo, ih3]
          have hfilter : rest.filter (fun i => !((fsWriteBytes st.fs path c) i.2.1).isSome) =
              rest.filter (fun i => !(st.fs i.2.1).isSome) := by
            apply List.filter_congr
            intro i hi
            have : i.2.1 ≠ path := by
              intro hcontra
              exact hpath_not (hcontra ▸ List.mem_map_of_mem (fun i => i.2.1) hi)
            simp [fsWriteBytes, this]
          rw [hfilter, List.filter_cons, if_pos (by simp [hexf])]
          simp
        · intro q hq
          rw [hgo]
          have hqp : q ≠ path := by
            intro hcontra
            rw [hcontra] at hq
            rw [hq] at hexf
            exact absurd hexf (by simp)
          have hwq : (fsWriteBytes st.fs path c) q = st.fs q := by
            simp [fsWriteBytes, hqp]
          have hq' : ((⟨fsWriteBytes st.fs path c, st.progress + size,
              st.downloaded ++ [(url, path)], none⟩ : DlState).fs q).isSome = true := by
            simpa [hwq] using hq
          rw [ih4 q hq']
          simpa using hwq

/-- C9: with overwrite unset and pairwise distinct destinations, a run
in which every missing destination's url transfers successfully skips
exactly the already-existing destinations (no error), downloads exactly
the missing ones, leaves existing destinations untouched, and advances
the progress bar by every item's expected size — skipped items included
— so the count reaches the sum of all expected sizes. -/
theorem C9_skip_existing_full_progress
    (transport : Transport) (files : List (String × AbsPath × Nat)) (fs : Fs)
    (hnd : (files.map (fun i => i.2.1)).Nodup)
    (hok : ∀ i ∈ files, (fs i.2.1).isSome = false →
      ∃ c, transport i.1 = Except.ok c) :
    (mass_download transport files false fs).err = none ∧
    (mass_download transport files false fs).progress = mass_download_total files ∧
    (mass_download transport files false fs).downloaded =
      (files.filter (fun i => !(fs i.2.1).isSome)).map (fun i => (i.1, i.2.1)) ∧
    (∀ i ∈ files, (fs i.2.1).isSome = true →
      (mass_download transport files false fs).fs i.2.1 = fs i.2.1) := by
  obtain ⟨h1, h2, h3, h4⟩ :=
    mass_download_go_success transport files
      { fs := fs, progress := 0, downloaded := [], err := none } hnd rfl hok
  exact ⟨h1, by simpa [mass_download_total] using h2, by simpa using h3,
    fun i hi hex => h4 i.2.1 hex⟩

/-- Witness for C9 at a concrete batch: destination of the first item
exists and is skipped, the second is downloaded, progress reaches the
full total of 12. -/
theorem C9_skip_existing_full_progress_witness :
    (mass_download okTransport filesC9 false fsC9).err = none ∧
    (mass_download okTransport filesC9 false fsC9).progress = mass_download_total filesC9 ∧
    (mass_download okTransport filesC9 false fsC9).downloaded =
      (filesC9.filter (fun i => !(fsC9 i.2.1).isSome)).map (fun i => (i.1, i.2.1)) ∧
    (∀ i ∈ filesC9, (fsC9 i.2.1).isSome = true →
      (mass_download okTransport filesC9 false fsC9).fs i.2.1 = fsC9 i.2.1) :=
  C9_skip_existing_full_progress okTransport filesC9 fsC9 (by decide)
    (fun i _ _ => ⟨[3], rfl⟩)

/-- C8 fails on the code: mass_download has no per-item error handling,
so when the first item's transfer raises, the loop aborts with the
exception — nothing is downloaded, no progress is counted, and the
second item, whose transfer would have succeeded, is never attempted. -/
theorem C8_first_error_aborts_whole_batch :
    (mass_download failTransport filesC8 false emptyFs).err = some "boom" ∧
    (mass_download failTransport filesC8 false emptyFs).downloaded = [] ∧
    (mass_download failTransport filesC8 false emptyFs).progress = 0 ∧
    (mass_download failTransport filesC8 false emptyFs).fs ["p2"] = none ∧
    failTransport "u2" = Except.ok [1] := by
  refine ⟨rfl, rfl, rfl, rfl, rfl⟩

/-- C8 amended: a transfer error on one item raises out of the loop and
aborts the entire batch at that item: the state freezes with the
exception recorded, and no later item is inspected, downloaded or
counted; only items processed before the failing one keep their
results. -/
theorem C8_amended_error_stops_batch_at_failing_item
    (transport : Transport) (overwrite : Bool) (url : String) (path : AbsPath)
    (size : Nat) (rest : List (String × AbsPath × Nat)) (st : DlState)
    (e : String)
    (hcond : (st.fs path).isSome = false ∨ overwrite = true)
    (he : transport url = Except.error e) :
    mass_download_go transport overwrite ((url, path, size) :: rest) st =
      { st with err := some e } := by
  have hc : (!(st.fs path).isSome || overwrite) = true := by
    rcases hcond with h | h
    · simp [h]
    · simp [h]
  rw [mass_download_go, hc]
  simp [download_file, he]

/-- Witness for C8's amended statement at the concrete failing batch. -/
theorem C8_amended_error_stops_batch_at_failing_item_witness :
    mass_download_go failTransport false
        [("u1", ["p1"], 10), ("u2", ["p2"], 20)]
        { fs := emptyFs, progress := 0, downloaded := [], err := none } =
      { fs := emptyFs, progress := 0, downloaded := [], err := some "boom" } :=
  C8_amended_error_stops_batch_at_failing_item failTransport false "u1" ["p1"] 10
    [("u2", ["p2"], 20)] { fs := emptyFs, progress := 0, downloaded := [], err := none }
    "boom" (Or.inl rfl) rfl

/-! ### The tag normalizer: the stable sort -/

theorem insertSorted_perm (lt : α → α → Bool) (x : α) (l : List α) :
    (insertSorted lt x l).Perm (x :: l) := by
  induction l with
  | nil => exact List.Perm.refl _
  | cons y ys ih =>
      by_cases h : lt x y
      · simp only [insertSorted, h, if_true]
        exact List.Perm.refl _
      · simp only [insertSorted, h, if_false]
        exact (ih.cons y).trans (List.Perm.swap x y ys)

theorem stableSort_go_perm (lt : α → α → Bool) (l acc : List α) :
    (l.foldl (fun acc x => insertSorted lt x acc) acc).Perm (acc ++ l) := by
  induction l generalizing acc with
  | nil => simp
  | cons x xs ih =>
      simp only [List.foldl_cons]
      refine (ih (insertSorted lt x acc)).trans ?_
      refine (List.Perm.append_right xs (insertSorted_perm lt x acc)).trans ?_
      simpa using List.perm_middle.symm

theorem stableSort_perm (lt : α → α → Bool) (l : List α) :
    (stableSort lt l).Perm l := by
  simpa using stableSort_go_perm lt l []

theorem mem_insertSorted (lt : α → α → Bool) (x a : α) (l : List α) :
    a ∈ insertSorted lt x l ↔ a = x ∨ a ∈ l :=
  ((insertSorted_perm lt x l).mem_iff).trans (by simp)

/-- The descending key order the tag sort produces. -/
def tagGe (a b : String) : Prop :=
  sort_tag b ≤ sort_tag a

theorem insertSorted_pairwise_tag (x : String) (l : List String)
    (h : l.Pairwise tagGe) : (insertSorted tagBefore x l).Pairwise tagGe := by
  induction l with
  | nil => simp [insertSorted, List.pairwise_cons]
  | cons y ys ih =>
      by_cases hlt : tagBefore x y
      · simp only [insertSorted, hlt, if_true]
        refine List.pairwise_cons.2 ⟨?_, h⟩
        intro z hz
        rcases List.mem_cons.1 hz with hz | hz
        · subst hz
          exact le_of_lt (by simpa [tagBefore] using hlt)
        · have h1 : sort_tag z ≤ sort_tag y :=
            (List.pairwise_cons.1 h).1 z hz
          have h2 : sort_tag y < sort_tag x := by simpa [tagBefore] using hlt
          exact le_of_lt (lt_of_le_of_lt h1 h2)
      · simp only [insertSorted, hlt, if_false]
        refine List.pairwise_cons.2 ⟨?_, ih (List.Pairwise.of_cons h)⟩
        intro z hz
        rcases (mem_insertSorted tagBefore x z ys).1 hz with hz | hz
        · subst hz
          simpa [tagBefore, tagGe] using hlt
        · exact (List.pairwise_cons.1 h).1 z hz

theorem stableSort_go_pairwise_tag (l acc : List String)
    (h : acc.Pairwise tagGe) :
    (l.foldl (fun acc x => insertSorted tagBefore x acc) acc).Pairwise tagGe := by
  induction l generalizing acc with
  | nil => exact h
  | cons x xs ih =>
      exact ih (insertSorted tagBefore x acc) (insertSorted_pairwise_tag x acc h)

theorem stableSort_pairwise_tag (l : List String) :
    (stableSort tagBefore l).Pairwise tagGe :=
  stableSort_go_pairwise_tag l [] (List.Pairwise.nil)

theorem insertSorted_append_tag (x : String) (acc : List String)
    (h : ∀ y ∈ acc, ¬ tagBefore x y = true) :
    insertSorted tagBefore x acc = acc ++ [x] := by
  induction acc with
  | nil => rfl
  | cons y ys ih =>
      have hy : ¬ tagBefore x y = true := h y (List.mem_cons_self y ys)
      simp only [insertSorted, hy, if_false, Bool.false_eq_true]
      rw [ih (fun z hz => h z (List.mem_cons_of_mem y hz))]
      simp

theorem stableSort_go_sorted_id_tag (l acc : List String)
    (h : (acc ++ l).Pairwise tagGe) :
    l.foldl (fun acc x => insertSorted tagBefore x acc) acc = acc ++ l := by
  induction l generalizing acc with
  | nil => simp
  | cons x xs ih =>
      have hx : ∀ y ∈ acc, ¬ tagBefore x y = true := by
        intro y hy
        have := (List.pairwise_append.1 h).2.2 y hy x (List.mem_cons_self x xs)
        simp only [tagBefore]
        rw [tagGe] at this
        simp
        exact this
      simp only [List.foldl_cons]
      rw [insertSorted_append_tag x acc hx]
      have h' : ((acc ++ [x]) ++ xs).Pairwise tagGe := by
        simpa using h
      rw [ih (acc ++ [x]) h']
      simp

theorem stableSort_sorted_id_tag (l : List String)
    (h : l.Pairwise tagGe) : stableSort tagBefore l = l := by
  simpa using stableSort_go_sorted_id_tag l [] (by simpa using h)

/-! ### Characters: lowercasing and whitespace -/

theorem toNat_lowerChar_upper (c : Char) (h1 : 65 ≤ c.toNat) (h2 : c.toNat ≤ 90) :
    (lowerChar c).toNat = c.toNat + 32 := by
  rw [lowerChar, if_pos ⟨h1, h2⟩, Char.ofNat, dif_pos (Or.inl (by omega))]
  rfl

theorem lowerChar_eq_self (c : Char) (h : ¬(65 ≤ c.toNat ∧ c.toNat ≤ 90)) :
    lowerChar c = c := by
  rw [lowerChar, if_neg h]

theorem lowerChar_idem (c : Char) : lowerChar (lowerChar c) = lowerChar c := by
  by_cases h : 65 ≤ c.toNat ∧ c.toNat ≤ 90
  · have ht := toNat_lowerChar_upper c h.1 h.2
    exact lowerChar_eq_self (lowerChar c) (by omega)
  · rw [lowerChar_eq_self c h]
    exact lowerChar_eq_self c h

theorem isWhitespace_lowerChar (c : Char) :
    (lowerChar c).isWhitespace = c.isWhitespace := by
  by_cases h : 65 ≤ c.toNat ∧ c.toNat ≤ 90
  · have ht := toNat_lowerChar_upper c h.1 h.2
    have hws : ∀ d : Char, 64 < d.toNat →
        (d = ' ' → False) ∧ (d = '\t' → False) ∧ (d = '\x0d' → False) ∧
          (d = '\n' → False) := by
      intro d hd
      refine ⟨?_, ?_, ?_, ?_⟩ <;> (intro he; subst he; exact absurd hd (by decide))
    obtain ⟨h1, h2, h3, h4⟩ := hws c (by omega)
    obtain ⟨g1, g2, g3, g4⟩ := hws (lowerChar c) (by omega)
    simp [Char.isWhitespace, decide_eq_false h1, decide_eq_false h2,
      decide_eq_false h3, decide_eq_false h4, decide_eq_false g1,
      decide_eq_false g2, decide_eq_false g3, decide_eq_false g4]
  · rw [lowerChar_eq_self c h]

/-! ### Strings: strip and lower -/

theorem dropWhile_self (p : α → Bool) (l : List α) :
    (l.dropWhile p).dropWhile p = l.dropWhile p := by
  induction l with
  | nil => rfl
  | cons x xs ih =>
      by_cases hp : p x
      · rw [List.dropWhile_cons, if_pos hp, ih]
      · rw [List.dropWhile_cons, if_neg hp, List.dropWhile_cons, if_neg hp]

theorem length_dropWhile_le (p : α → Bool) (l : List α) :
    (l.dropWhile p).length ≤ l.length := by
  induction l with
  | nil => exact Nat.le_refl 0
  | cons x xs ih =>
      by_cases hp : p x
      · rw [List.dropWhile_cons, if_pos hp]
        exact Nat.le_succ_of_le ih
      · rw [List.dropWhile_cons, if_neg hp]

theorem dropWhile_eq_self_of_prefix (p : α → Bool) (u v : List α)
    (hpre : v <+: u) (hu : u.dropWhile p = u) : v.dropWhile p = v := by
  cases v with
  | nil => rfl
  | cons c v2 =>
      obtain ⟨t, ht⟩ := hpre
      by_cases hp : p c
      · rw [← ht, List.cons_append, List.dropWhile_cons, if_pos hp] at hu
        have hle := length_dropWhile_le p (v2 ++ t)
        rw [hu, List.length_cons] at hle
        omega
      · rw [List.dropWhile_cons, if_neg hp]

theorem stripData_eq_rdropWhile (l : List Char) :
    stripData l = (l.dropWhile Char.isWhitespace).rdropWhile Char.isWhitespace := by
  simp [stripData, List.rdropWhile]

theorem rdropWhile_self (p : Char → Bool) (l : List Char) :
    (l.rdropWhile p).rdropWhile p = l.rdropWhile p := by
  simp [List.rdropWhile, dropWhile_self]

theorem stripData_dropWhile (l : List Char) :
    (stripData l).dropWhile Char.isWhitespace = stripData l := by
  rw [stripData_eq_rdropWhile]
  exact dropWhile_eq_self_of_prefix Char.isWhitespace _ _
    (List.rdropWhile_prefix _ _) (dropWhile_self _ l)

theorem stripData_idem (l : List Char) : stripData (stripData l) = stripData l := by
  rw [stripData_eq_rdropWhile (stripData l), stripData_dropWhile,
    stripData_eq_rdropWhile, rdropWhile_self]

theorem stripData_map_lower (l : List Char) :
    stripData (l.map lowerChar) = (stripData l).map lowerChar := by
  have hws : (Char.isWhitespace ∘ lowerChar) = Char.isWhitespace :=
    funext isWhitespace_lowerChar
  simp only [stripData, List.dropWhile_map, hws, ← List.map_reverse]

theorem map_lower_idem (l : List Char) :
    (l.map lowerChar).map lowerChar = l.map lowerChar := by
  rw [List.map_map]
  have : (lowerChar ∘ lowerChar) = lowerChar := funext lowerChar_idem
  rw [this]

theorem cleanTag_idem (t : String) : cleanTag (cleanTag t) = cleanTag t := by
  show pyStrip (pyLower (pyStrip (pyLower t))) = pyStrip (pyLower t)
  have h1 : ∀ s : String, (pyLower s).data = s.data.map lowerChar := fun s => rfl
  have h2 : ∀ s : String, (pyStrip s).data = stripData s.data := fun s => rfl
  apply String.ext
  rw [h2, h1, h2, h1, ← stripData_map_lower, map_lower_idem, stripData_idem]

/-! ### Sort keys: sign and injectivity -/

theorem fromBytesLE_cons (b : Nat) (l : List Nat) :
    fromBytesLE (b :: l) = b + 256 * fromBytesLE l := rfl

theorem fromBytesLE_pos (l : List Nat) (b : Nat) (hb : b ∈ l) (hpos : 0 < b) :
    0 < fromBytesLE l := by
  induction l with
  | nil => cases hb
  | cons x xs ih =>
      rw [fromBytesLE_cons]
      rcases List.mem_cons.1 hb with rfl | hb2
      · omega
      · have := ih hb2
        omega

theorem special_code_pos (t : String) (h : isSpecialTag t = true) :
    0 < fromBytesLE (strBytes t) := by
  rw [isSpecialTag] at h
  rcases Bool.or_eq_true_iff.1 h with h | h
  · have hmem : ':' ∈ t.data := by
      simpa [List.contains] using h
    have hb : (58 : Nat) ∈ strBytes t := by
      rw [strBytes]
      exact List.mem_flatMap.2 ⟨':', hmem, by decide⟩
    exact fromBytesLE_pos _ 58 hb (by omega)
  · cases hd : t.data with
    | nil => rw [hd] at h; simp at h
    | cons c rest =>
        rw [hd] at h
        simp only at h
        have hc : c = '-' := by simpa using h
        subst hc
        have hb : (45 : Nat) ∈ strBytes t := by
          rw [strBytes, hd]
          simp [utf8Bytes]
        exact fromBytesLE_pos _ 45 hb (by omega)

theorem special_key_neg (t : String) (h : isSpecialTag t = true) :
    sort_tag t < 0 := by
  rw [sort_tag]
  simp only [h, if_true]
  have := special_code_pos t h
  omega

theorem plain_key_nonneg (t : String) (h : isSpecialTag t = false) :
    0 ≤ sort_tag t := by
  rw [sort_tag]
  simp only [h, if_false, Bool.false_eq_true]
  omega

/-! ### Sorted permutations with injective keys coincide -/

theorem tag_sorted_perm_eq (l1 : List String) :
    ∀ l2, l1.Perm l2 → l1.Pairwise tagGe → l2.Pairwise tagGe →
      (∀ s ∈ l1, ∀ t ∈ l1, sort_tag s = sort_tag t → s = t) → l1 = l2 := by
  induction l1 with
  | nil =>
      intro l2 hperm _ _ _
      exact hperm.nil_eq
  | cons x xs ih =>
      intro l2 hperm h1 h2 hinj
      cases l2 with
      | nil => exact absurd hperm.symm.nil_eq (by simp)
      | cons y ys =>
          have hx2 : x ∈ y :: ys := hperm.mem_iff.1 (List.mem_cons_self x xs)
          have hy1 : y ∈ x :: xs := hperm.symm.mem_iff.1 (List.mem_cons_self y ys)
          have hxy : x = y := by
            rcases List.mem_cons.1 hx2 with h | h
            · exact h
            · rcases List.mem_cons.1 hy1 with h' | h'
              · exact h'.symm
              · have k1 : sort_tag x ≤ sort_tag y := (List.pairwise_cons.1 h2).1 x h
                have k2 : sort_tag y ≤ sort_tag x := (List.pairwise_cons.1 h1).1 y h'
                exact hinj x (List.mem_cons_self x xs) y hy1 (le_antisymm k1 k2)
          subst hxy
          have htail := ih ys hperm.cons_inv h1.of_cons h2.of_cons
            (fun s hs t ht hk =>
              hinj s (List.mem_cons_of_mem x hs) t (List.mem_cons_of_mem x ht) hk)
          rw [htail]

theorem map_self_of_mem (f : α → α) (l : List α) (h : ∀ a ∈ l, f a = a) :
    l.map f = l := by
  induction l with
  | nil => rfl
  | cons x xs ih =>
      rw [List.map_cons, h x (List.mem_cons_self x xs),
        ih (fun a ha => h a (List.mem_cons_of_mem x ha))]

/-- C6 as amended: normalize_tags is idempotent unconditionally, and it
is order-independent on every list whose cleaned tags have
pairwise-distinct sort keys (distinct strings with equal byte-derived
keys exist only through trailing NUL bytes, which command-line tags
cannot contain). -/
theorem C6_normalize_idempotent_and_order_independent
    (L L2 : List String) (hperm : L2.Perm L) :
    normalize_tags (normalize_tags L) = normalize_tags L ∧
    ((L.map cleanTag).Pairwise (fun s t => sort_tag s = sort_tag t → s = t) →
      normalize_tags L2 = normalize_tags L) := by
  constructor
  · have hmem : ∀ t ∈ normalize_tags L, cleanTag t = t := by
      intro t ht
      have ht2 : t ∈ L.map cleanTag := by
        rw [normalize_tags] at ht
        exact (stableSort_perm tagBefore (L.map cleanTag)).mem_iff.1 ht
      obtain ⟨u, _, rfl⟩ := List.mem_map.1 ht2
      exact cleanTag_idem u
    rw [normalize_tags, map_self_of_mem cleanTag (normalize_tags L) hmem]
    rw [normalize_tags]
    exact stableSort_sorted_id_tag _ (stableSort_pairwise_tag _)
  · intro hinj
    have hsymm : Symmetric (fun s t => sort_tag s = sort_tag t → s = t) :=
      fun a b hab hk => (hab hk.symm).symm
    have hforall := List.Pairwise.forall hsymm hinj
    have hmemL : ∀ s ∈ normalize_tags L2, s ∈ L.map cleanTag := by
      intro s hs
      rw [normalize_tags] at hs
      have h1 : s ∈ L2.map cleanTag :=
        (stableSort_perm tagBefore (L2.map cleanTag)).mem_iff.1 hs
      exact (hperm.map cleanTag).mem_iff.1 h1
    have hperm12 : (normalize_tags L2).Perm (normalize_tags L) := by
      rw [normalize_tags, normalize_tags]
      exact ((stableSort_perm tagBefore _).trans (hperm.map cleanTag)).trans
        (stableSort_perm tagBefore _).symm
    refine tag_sorted_perm_eq (normalize_tags L2) (normalize_tags L) hperm12
      ?_ ?_ ?_
    · rw [normalize_tags]
      exact stableSort_pairwise_tag _
    · rw [normalize_tags]
      exact stableSort_pairwise_tag _
    · intro s hs t ht hk
      by_cases hst : s = t
      · exact hst
      · exact hforall (hmemL s hs) (hmemL t ht) hst hk

/-- Witness for C6's amended statement on a concrete shuffled pair. -/
theorem C6_normalize_idempotent_and_order_independent_witness :
    normalize_tags (normalize_tags ["B ", "-x"]) = normalize_tags ["B ", "-x"] ∧
    normalize_tags ["-x", "B "] = normalize_tags ["B ", "-x"] :=
  ⟨(C6_normalize_idempotent_and_order_independent ["B ", "-x"] ["-x", "B "]
      (by decide)).1,
   (C6_normalize_idempotent_and_order_independent ["B ", "-x"] ["-x", "B "]
      (by decide)).2 (by decide)⟩

/-- C6 fails as stated: the little-endian byte key is not injective over
distinct tag strings — a trailing NUL byte does not change the integer —
and normalize_tags is then not order-independent: the two shuffles of
a two-element list with colliding keys normalize to different lists. -/
theorem C6_counterexample_trailing_nul_collision :
    ("a" : String) ≠ "a\x00" ∧
    sort_tag "a" = sort_tag "a\x00" ∧
    List.Perm ["a\x00", "a"] ["a", "a\x00"] ∧
    normalize_tags ["a\x00", "a"] ≠ normalize_tags ["a", "a\x00"] := by
  decide

/-- C7: in the output of normalize_tags, every metadata or negated tag
(containing a colon or starting with a hyphen) comes strictly after all
plain tags: the output splits into a plain-only segment followed by a
special-only segment.  Plain keys are the non-negative byte integers,
special keys are strictly negative, and the output is sorted in
descending key order. -/
theorem C7_special_tags_strictly_after_plain (tags : List String) :
    ∃ l1 l2, normalize_tags tags = l1 ++ l2 ∧
      (∀ t ∈ l1, isSpecialTag t = false) ∧
      (∀ t ∈ l2, isSpecialTag t = true) := by
  have hsorted : (normalize_tags tags).Pairwise tagGe := by
    rw [normalize_tags]
    exact stableSort_pairwise_tag _
  refine ⟨(normalize_tags tags).takeWhile (fun t => decide (0 ≤ sort_tag t)),
    (normalize_tags tags).dropWhile (fun t => decide (0 ≤ sort_tag t)),
    (List.takeWhile_append_dropWhile _ _).symm, ?_, ?_⟩
  · intro t ht
    have hk : 0 ≤ sort_tag t := by
      simpa using List.mem_takeWhile_imp ht
    by_contra hsp
    have hsp2 : isSpecialTag t = true := by simpa using hsp
    have := special_key_neg t hsp2
    omega
  · have hdrop : ∀ l : List String, l.Pairwise tagGe →
        ∀ t ∈ l.dropWhile (fun t => decide (0 ≤ sort_tag t)), sort_tag t < 0 := by
      intro l
      induction l with
      | nil => intro _ t ht; simp at ht
      | cons x xs ih =>
          intro h t ht
          by_cases hx : 0 ≤ sort_tag x
          · rw [List.dropWhile_cons, if_pos (by simpa using hx)] at ht
            exact ih h.of_cons t ht
          · rw [List.dropWhile_cons, if_neg (by simpa using hx)] at ht
            rcases List.mem_cons.1 ht with rfl | ht2
            · omega
            · have := (List.pairwise_cons.1 h).1 t ht2
              rw [tagGe] at this
              omega
    intro t ht
    have hneg := hdrop (normalize_tags tags) hsorted t ht
    by_contra hsp
    have hf : isSpecialTag t = false := by simpa using hsp
    have := plain_key_nonneg t hf
    omega

/-! ### The canonicalization engine: idempotence -/

theorem isRegularAt_of_present_not_symlink (fs : Fs) (p : AbsPath)
    (hpres : (fs p).isSome = true) (hsym : isSymlinkAt fs p = false) :
    isRegularAt fs p = true := by
  rw [isRegularAt]
  rw [isSymlinkAt] at hsym
  cases hfp : fs p with
  | none => rw [hfp] at hpres; simp at hpres
  | some e =>
      cases e with
      | regular content => rfl
      | symlink target => rw [hfp] at hsym; simp at hsym

theorem isSymlinkAt_false_of_regular (fs : Fs) (p : AbsPath)
    (h : isRegularAt fs p = true) : isSymlinkAt fs p = false := by
  rw [isRegularAt] at h
  rw [isSymlinkAt]
  cases hfp : fs p with
  | none => rfl
  | some e =>
      cases e with
      | regular content => rfl
      | symlink target => rw [hfp] at h; simp at h

theorem replace_frame (pm : PostManager) (fs : Fs) (pm1 : PostManager) (fs1 : Fs)
    (h : replace_copies_with_symlinks pm fs = some (pm1, fs1))
    (q : AbsPath) (hqc : q ∉ pm.copies) (hql : q ∉ pm.links) : fs1 q = fs q := by
  rw [replace_copies_with_symlinks] at h
  cases hfind : find_shortest_path pm.copies with
  | none => rw [hfind] at h; simp at h
  | some original =>
      rw [hfind] at h
      simp only [Option.some.injEq, Prod.mk.injEq] at h
      rw [← h.2, relink_foldl_at]
      have hq : q ∉ pm.copies.erase original ++ pm.links := by
        intro hmem
        rcases List.mem_append.1 hmem with hmem | hmem
        · exact hqc (List.erase_subset original pm.copies hmem)
        · exact hql hmem
      rw [if_neg hq]

theorem canonEngine_frame (fs : Fs) (g : List AbsPath) (fs1 : Fs)
    (h : canonEngine fs g = some fs1) (q : AbsPath) (hq : q ∉ g) : fs1 q = fs q := by
  rw [canonEngine] at h
  cases hrep : replace_copies_with_symlinks (scanPartition fs 0 g) fs with
  | none => rw [hrep] at h; simp at h
  | some r =>
      rw [hrep] at h
      simp only [Option.some.injEq] at h
      subst h
      refine replace_frame _ fs r.1 r.2 (by rw [hrep]) q ?_ ?_
      · intro hmem
        exact hq ((List.mem_filter.1 hmem).1)
      · intro hmem
        exact hq ((List.mem_filter.1 hmem).1)

theorem filter_eq_single (P : AbsPath → Bool) (g : List AbsPath) (c : AbsPath)
    (hnd : g.Nodup) (hc : c ∈ g) (hPc : P c = true)
    (hother : ∀ p ∈ g, p ≠ c → P p = false) : g.filter P = [c] := by
  induction g with
  | nil => cases hc
  | cons x xs ih =>
      by_cases hxc : x = c
      · subst hxc
        rw [List.filter_cons, if_pos hPc]
        have hrest : xs.filter P = [] := by
          rw [List.filter_eq_nil_iff]
          intro a ha
          have hax : a ≠ x := by
            intro hcontra
            subst hcontra
            exact (List.nodup_cons.1 hnd).1 ha
          simp [hother a (List.mem_cons_of_mem x ha) hax]
        rw [hrest]
      · have hPx : P x = false :=
          hother x (List.mem_cons_self x xs) hxc
        rw [List.filter_cons, if_neg (by simp [hPx])]
        refine ih (List.nodup_cons.1 hnd).2 ?_ ?_
        · rcases List.mem_cons.1 hc with hcx | hcs
          · exact absurd hcx.symm hxc
          · exact hcs
        · intro p hp hpc
          exact hother p (List.mem_cons_of_mem x hp) hpc

theorem canonEngine_success (fs : Fs) (g : List AbsPath)
    (hnd : g.Nodup)
    (hpres : ∀ p ∈ g, (fs p).isSome = true)
    (hreg : ∃ p ∈ g, isRegularAt fs p = true) :
    ∃ fs1 c, canonEngine fs g = some fs1 ∧ canonicalState fs1 g c ∧
      ∀ q, q ∉ g → fs1 q = fs q := by
  obtain ⟨p0, hp0g, hp0reg⟩ := hreg
  have hp0cop : p0 ∈ g.filter (fun p => !isSymlinkAt fs p) :=
    List.mem_filter.2 ⟨hp0g, by simp [isSymlinkAt_false_of_regular fs p0 hp0reg]⟩
  have hne : g.filter (fun p => !isSymlinkAt fs p) ≠ [] :=
    fun hcontra => by rw [hcontra] at hp0cop; cases hp0cop
  obtain ⟨c, l1, l2, hfind, hdec, _, _⟩ :=
    find_shortest_path_first_min (g.filter (fun p => !isSymlinkAt fs p)) hne
  have hccop : c ∈ g.filter (fun p => !isSymlinkAt fs p) := by
    rw [hdec]
    exact List.mem_append_right l1 (List.mem_cons_self c l2)
  have hcg : c ∈ g := (List.mem_filter.1 hccop).1
  have hcsym : isSymlinkAt fs c = false := by
    have := (List.mem_filter.1 hccop).2
    simpa using this
  have hcreg : isRegularAt fs c = true :=
    isRegularAt_of_present_not_symlink fs c (hpres c hcg) hcsym
  have hcopnd : (g.filter (fun p => !isSymlinkAt fs p)).Nodup :=
    List.Nodup.filter _ hnd
  have hrep : replace_copies_with_symlinks (scanPartition fs 0 g) fs =
      some (⟨0, (g.filter (fun p => !isSymlinkAt fs p)).erase c,
              g.filter (fun p => isSymlinkAt fs p)⟩,
        ((g.filter (fun p => !isSymlinkAt fs p)).erase c ++
            g.filter (fun p => isSymlinkAt fs p)).foldl (relinkStep c) fs) := by
    rw [replace_copies_with_symlinks]
    have hcop : (scanPartition fs 0 g).copies = g.filter (fun p => !isSymlinkAt fs p) := rfl
    have hlnk : (scanPartition fs 0 g).links = g.filter (fun p => isSymlinkAt fs p) := rfl
    rw [hcop, hlnk, hfind]
    rfl
  have hcnot : c ∉ (g.filter (fun p => !isSymlinkAt fs p)).erase c ++
      g.filter (fun p => isSymlinkAt fs p) := by
    intro hmem
    rcases List.mem_append.1 hmem with hmem | hmem
    · exact (hcopnd.mem_erase_iff.1 hmem).1 rfl
    · have := (List.mem_filter.1 hmem).2
      rw [hcsym] at this
      cases this
  refine ⟨((g.filter (fun p => !isSymlinkAt fs p)).erase c ++
      g.filter (fun p => isSymlinkAt fs p)).foldl (relinkStep c) fs,
    c, ?_, ⟨hcg, ?_, ?_⟩, ?_⟩
  · rw [canonEngine, hrep]
  · have : (((g.filter (fun p => !isSymlinkAt fs p)).erase c ++
        g.filter (fun p => isSymlinkAt fs p)).foldl (relinkStep c) fs) c = fs c := by
      rw [relink_foldl_at, if_neg hcnot]
    rw [isRegularAt, this]
    rw [isRegularAt] at hcreg
    exact hcreg
  · intro p hpg hpc
    rw [relink_foldl_at]
    have hmem : p ∈ (g.filter (fun p => !isSymlinkAt fs p)).erase c ++
        g.filter (fun p => isSymlinkAt fs p) := by
      by_cases hsym : isSymlinkAt fs p = true
      · exact List.mem_append_right _ (List.mem_filter.2 ⟨hpg, hsym⟩)
      · refine List.mem_append_left _ ?_
        rw [List.mem_erase_of_ne hpc]
        exact List.mem_filter.2 ⟨hpg, by simpa using hsym⟩
    rw [if_pos hmem]
  · intro q hq
    rw [relink_foldl_at]
    have hqnot : q ∉ (g.filter (fun p => !isSymlinkAt fs p)).erase c ++
        g.filter (fun p => isSymlinkAt fs p) := by
      intro hmem
      rcases List.mem_append.1 hmem with hmem | hmem
      · exact hq (List.mem_filter.1 (List.erase_subset c _ hmem)).1
      · exact hq (List.mem_filter.1 hmem).1
    rw [if_neg hqnot]

theorem canonEngine_fixpoint (fs : Fs) (g : List AbsPath) (c : AbsPath)
    (hnd : g.Nodup) (hcs : canonicalState fs g c) :
    canonEngine fs g = some fs := by
  obtain ⟨hcg, hcreg, hrest⟩ := hcs
  have hcsym : isSymlinkAt fs c = false := isSymlinkAt_false_of_regular fs c hcreg
  have hcopies : g.filter (fun p => !isSymlinkAt fs p) = [c] := by
    refine filter_eq_single _ g c hnd hcg (by simp [hcsym]) ?_
    intro p hp hpc
    have := hrest p hp hpc
    simp [isSymlinkAt, this]
  have hfold : (([] ++ g.filter (fun p => isSymlinkAt fs p)).foldl
      (relinkStep c) fs) = fs := by
    funext q
    rw [relink_foldl_at]
    by_cases hq : q ∈ [] ++ g.filter (fun p => isSymlinkAt fs p)
    · rw [if_pos hq]
      rw [List.nil_append] at hq
      have hqg : q ∈ g := (List.mem_filter.1 hq).1
      have hqsym : isSymlinkAt fs q = true := (List.mem_filter.1 hq).2
      have hqc : q ≠ c := by
        intro hcontra
        subst hcontra
        rw [hqsym] at hcsym
        cases hcsym
      exact (hrest q hqg hqc).symm
    · rw [if_neg hq]
  have hrep : replace_copies_with_symlinks (scanPartition fs 0 g) fs =
      some (⟨0, [], g.filter (fun p => isSymlinkAt fs p)⟩, fs) := by
    rw [replace_copies_with_symlinks]
    have hcop : (scanPartition fs 0 g).copies = g.filter (fun p => !isSymlinkAt fs p) := rfl
    have hlnk : (scanPartition fs 0 g).links = g.filter (fun p => isSymlinkAt fs p) := rfl
    rw [hcop, hlnk, hcopies]
    have hfind : find_shortest_path [c] = some c := rfl
    rw [hfind]
    have herase : ([c] : List AbsPath).erase c = [] := List.erase_cons_head c []
    simp only [herase, Option.some.injEq, Prod.mk.injEq]
    exact ⟨rfl, hfold⟩
  rw [canonEngine, hrep]

theorem canonEngineAll_frame (groups : List (List AbsPath)) (fs fs1 : Fs)
    (h : canonEngineAll fs groups = some fs1)
    (q : AbsPath) (hq : ∀ g ∈ groups, q ∉ g) : fs1 q = fs q := by
  induction groups generalizing fs with
  | nil =>
      rw [canonEngineAll] at h
      simp only [Option.some.injEq] at h
      rw [h]
  | cons g gs ih =>
      rw [canonEngineAll] at h
      cases heng : canonEngine fs g with
      | none => rw [heng] at h; simp at h
      | some fs2 =>
          rw [heng] at h
          have h1 : fs2 q = fs q :=
            canonEngine_frame fs g fs2 heng q (hq g (List.mem_cons_self g gs))
          have h2 : fs1 q = fs2 q :=
            ih fs2 h (fun g2 hg2 => hq g2 (List.mem_cons_of_mem g hg2))
          rw [h2, h1]

theorem canonEngineAll_first_run (groups : List (List AbsPath)) :
    ∀ fs : Fs,
      groups.Pairwise (fun g1 g2 => ∀ p ∈ g1, p ∉ g2) →
      (∀ g ∈ groups, g.Nodup) →
      (∀ g ∈ groups, ∀ p ∈ g, (fs p).isSome = true) →
      (∀ g ∈ groups, ∃ p ∈ g, isRegularAt fs p = true) →
      ∃ fs1, canonEngineAll fs groups = some fs1 ∧
        ∀ g ∈ groups, ∃ c, canonicalState fs1 g c := by
  induction groups with
  | nil =>
      intro fs _ _ _ _
      exact ⟨fs, rfl, by simp⟩
  | cons g gs ih =>
      intro fs hdisj hnd hpres hreg
      obtain ⟨fs2, c, heng, hcs, hframe⟩ :=
        canonEngine_success fs g (hnd g (List.mem_cons_self g gs))
          (hpres g (List.mem_cons_self g gs)) (hreg g (List.mem_cons_self g gs))
      have hsep : ∀ g2 ∈ gs, ∀ p ∈ g2, p ∉ g := by
        intro g2 hg2 p hp hpg
        exact (List.pairwise_cons.1 hdisj).1 g2 hg2 p hpg hp
      have hpres2 : ∀ g2 ∈ gs, ∀ p ∈ g2, (fs2 p).isSome = true := by
        intro g2 hg2 p hp
        rw [hframe p (hsep g2 hg2 p hp)]
        exact hpres g2 (List.mem_cons_of_mem g hg2) p hp
      have hreg2 : ∀ g2 ∈ gs, ∃ p ∈ g2, isRegularAt fs2 p = true := by
        intro g2 hg2
        obtain ⟨p, hp, hpreg⟩ := hreg g2 (List.mem_cons_of_mem g hg2)
        refine ⟨p, hp, ?_⟩
        rw [isRegularAt, hframe p (hsep g2 hg2 p hp)]
        rw [isRegularAt] at hpreg
        exact hpreg
      obtain ⟨fs1, hall, hcs1⟩ := ih fs2 (List.Pairwise.of_cons hdisj)
        (fun g2 hg2 => hnd g2 (List.mem_cons_of_mem g hg2)) hpres2 hreg2
      refine ⟨fs1, ?_, ?_⟩
      · rw [canonEngineAll, heng]
        exact hall
      · intro g2 hg2
        rcases List.mem_cons.1 hg2 with rfl | hg2s
        · refine ⟨c, hcs.1, ?_, ?_⟩
          · have hcq : fs1 c = fs2 c :=
              canonEngineAll_frame gs fs2 fs1 hall c
                (fun g3 hg3 hmem => hsep g3 hg3 c hmem hcs.1)
            rw [isRegularAt, hcq]
            have := hcs.2.1
            rw [isRegularAt] at this
            exact this
          · intro p hp hpc
            have hpq : fs1 p = fs2 p :=
              canonEngineAll_frame gs fs2 fs1 hall p
                (fun g3 hg3 hmem => hsep g3 hg3 p hmem hp)
            rw [hpq]
            exact hcs.2.2 p hp hpc
        · exact hcs1 g2 hg2s

theorem canonEngineAll_fixpoint (groups : List (List AbsPath)) (fs : Fs)
    (hnd : ∀ g ∈ groups, g.Nodup)
    (hcs : ∀ g ∈ groups, ∃ c, canonicalState fs g c) :
    canonEngineAll fs groups = some fs := by
  induction groups with
  | nil => rfl
  | cons g gs ih =>
      obtain ⟨c, hc⟩ := hcs g (List.mem_cons_self g gs)
      have heng : canonEngine fs g = some fs :=
        canonEngine_fixpoint fs g c (hnd g (List.mem_cons_self g gs)) hc
      rw [canonEngineAll, heng]
      exact ih (fun g2 hg2 => hnd g2 (List.mem_cons_of_mem g hg2))
        (fun g2 hg2 => hcs g2 (List.mem_cons_of_mem g hg2))

/-- C4: the canonicalization engine is idempotent.  On a tree whose scan
yields pairwise-disjoint duplicate-free path groups, each with at least
one regular copy, one engine pass succeeds; a second pass over the same
groups returns the filesystem unchanged — zero filesystem changes. -/
theorem C4_canonicalization_engine_idempotent (fs : Fs)
    (groups : List (List AbsPath))
    (hdisj : groups.Pairwise (fun g1 g2 => ∀ p ∈ g1, p ∉ g2))
    (hnd : ∀ g ∈ groups, g.Nodup)
    (hpres : ∀ g ∈ groups, ∀ p ∈ g, (fs p).isSome = true)
    (hreg : ∀ g ∈ groups, ∃ p ∈ g, isRegularAt fs p = true) :
    ∃ fs1, canonEngineAll fs groups = some fs1 ∧
      canonEngineAll fs1 groups = some fs1 := by
  obtain ⟨fs1, hall, hcs⟩ := canonEngineAll_first_run groups fs hdisj hnd hpres hreg
  exact ⟨fs1, hall, canonEngineAll_fixpoint groups fs1 hnd hcs⟩

/-- Witness for C4 at a concrete two-post filesystem. -/
theorem C4_canonicalization_engine_idempotent_witness :
    ∃ fs1, canonEngineAll fsC4 groupsC4 = some fs1 ∧
      canonEngineAll fs1 groupsC4 = some fs1 :=
  C4_canonicalization_engine_idempotent fsC4 groupsC4
    (by decide) (by decide) (by decide) (by decide)
